import Mathlib

/-!
Shallow embedding of the gota `series` package (file `series/series.go`,
the cache decorator `cacheableseries.go`, and — where the repository's
element/rolling implementation files are not available — models built
from the specification, each marked `Modelled from the spec:`).

Go `float64` values are embedded as exact rationals with `none` standing
for IEEE NaN; fallible Go code (panics, conversion errors) is embedded
with `Option`/`Except`.
-/

/-- Kind of a series (Go `Type` constants `String`, `Int`, `Float`, `Bool`). -/
inductive Kind
  | tString
  | tInt
  | tFloat
  | tBool
deriving DecidableEq

/-- Modelled from the spec: the ElementModel variants (the Go files defining
`intElement`, `floatElement`, `stringElement`, `boolElement` are not in the
provided sources). Each variant stores its native value; `none` is the
missing marker (for Float kind this is IEEE NaN, per the spec). -/
inductive Elem
  | eInt (v : Option Int)
  | eFloat (v : Option ℚ)
  | eStr (v : Option String)
  | eBool (v : Option Bool)
deriving DecidableEq

instance : Inhabited Elem := ⟨Elem.eFloat none⟩

/-- Kind tag of an element. -/
def Elem.kind : Elem → Kind
  | .eInt _ => .tInt
  | .eFloat _ => .tFloat
  | .eStr _ => .tString
  | .eBool _ => .tBool

/-- Modelled from the spec: per-kind missing-value detection (`IsNA`). -/
def Elem.IsNA : Elem → Bool
  | .eInt v => v.isNone
  | .eFloat v => v.isNone
  | .eStr v => v.isNone
  | .eBool v => v.isNone

/-- Modelled from the spec: strict ordering predicate. Int/Float compare
numerically, String lexicographically, Bool as false < true; a missing
value is neither less nor greater than anything (result `false`). -/
def Elem.Less : Elem → Elem → Bool
  | .eInt (some a), .eInt (some b) => decide (a < b)
  | .eFloat (some a), .eFloat (some b) => decide (a < b)
  | .eStr (some a), .eStr (some b) => decide (a < b)
  | .eBool (some a), .eBool (some b) => !a && b
  | _, _ => false

/-- Modelled from the spec: strict `Greater`, dual of `Less`. -/
def Elem.Greater : Elem → Elem → Bool
  | .eInt (some a), .eInt (some b) => decide (b < a)
  | .eFloat (some a), .eFloat (some b) => decide (b < a)
  | .eStr (some a), .eStr (some b) => decide (b < a)
  | .eBool (some a), .eBool (some b) => !b && a
  | _, _ => false

/-- Modelled from the spec: structural equality; a missing value is not
equal to anything (IEEE NaN semantics for the Float kind). -/
def Elem.Eq (a b : Elem) : Bool := !a.IsNA && !b.IsNA && a == b

/-- Modelled from the spec: negation of `Eq`. -/
def Elem.Neq (a b : Elem) : Bool := !(Elem.Eq a b)

/-- Modelled from the spec: non-strict ordering; false when either side is
missing. -/
def Elem.LessEq : Elem → Elem → Bool
  | .eInt (some a), .eInt (some b) => decide (a ≤ b)
  | .eFloat (some a), .eFloat (some b) => decide (a ≤ b)
  | .eStr (some a), .eStr (some b) => decide (a ≤ b)
  | .eBool (some a), .eBool (some b) => !a || b
  | _, _ => false

/-- Modelled from the spec: non-strict `GreaterEq`, dual of `LessEq`. -/
def Elem.GreaterEq : Elem → Elem → Bool
  | .eInt (some a), .eInt (some b) => decide (b ≤ a)
  | .eFloat (some a), .eFloat (some b) => decide (b ≤ a)
  | .eStr (some a), .eStr (some b) => decide (b ≤ a)
  | .eBool (some a), .eBool (some b) => !b || a
  | _, _ => false

/-- Modelled from the spec: `AsFloat` always succeeds, giving NaN (`none`)
for a missing value or a kind with no numeric representation. String-kind
numeric parsing is not modelled (no claim below evaluates `Float` on a
String-kind series; every theorem touching numeric aggregates excludes the
String kind exactly as the source does). -/
def Elem.Float : Elem → Option ℚ
  | .eInt (some v) => some (v : ℚ)
  | .eFloat v => v
  | .eBool (some true) => some 1
  | .eBool (some false) => some 0
  | _ => none

/-- Modelled from the spec: `AsInt` fails with a conversion error when the
stored value cannot be represented as an integer (missing values always
fail; a float is truncated toward zero as Go's conversion does). -/
def Elem.IntConv : Elem → Except String Int
  | .eInt (some v) => .ok v
  | .eFloat (some q) => .ok (q.num.tdiv q.den)
  | .eBool (some true) => .ok 1
  | .eBool (some false) => .ok 0
  | _ => .error "can not convert to int"

/-- Modelled from the spec: `AsBool` fails with a conversion error when the
stored value cannot be parsed as a boolean (ints other than 0/1, strings
other than true/false, and missing values fail). -/
def Elem.BoolConv : Elem → Except String Bool
  | .eBool (some b) => .ok b
  | .eInt (some v) =>
    if v = 1 then .ok true else if v = 0 then .ok false
    else .error "can not convert to bool"
  | .eStr (some v) =>
    if v = "true" then .ok true else if v = "false" then .ok false
    else .error "can not convert to bool"
  | _ => .error "can not convert to bool"

/-- Modelled from the spec: in-place replacement of a slot's value from
another element (`SetElement`), coercing to the slot's kind; a value that
cannot be coerced leaves the slot missing. -/
def Elem.convertTo (t : Kind) (e : Elem) : Elem :=
  match t with
  | .tInt => .eInt (match e.IntConv with | .ok v => some v | .error _ => none)
  | .tFloat => .eFloat e.Float
  | .tString =>
    .eStr (match e with
      | .eStr v => v
      | .eInt (some v) => some (toString v)
      | .eFloat (some v) => some (toString v)
      | .eBool (some b) => some (toString b)
      | _ => none)
  | .tBool => .eBool (match e.BoolConv with | .ok v => some v | .error _ => none)

/-- Numeric value of a non-missing element (default 0 for missing slots,
only ever read under a non-missing hypothesis). -/
def Elem.fval (e : Elem) : ℚ := e.Float.getD 0

/-- Linearly ordered master key uniting the four per-kind value orders;
used to state sortedness of `Order` results. -/
abbrev EKey : Type := (Int ⊕ₗ ℚ) ⊕ₗ (String ⊕ₗ Bool)

/-- Sort key of an element (the value inside, tagged by kind); missing
elements get an arbitrary key, never consulted under non-missing
hypotheses. -/
def Elem.keyD : Elem → EKey
  | .eInt (some v) => toLex (Sum.inl (toLex (Sum.inl v)))
  | .eFloat (some v) => toLex (Sum.inl (toLex (Sum.inr v)))
  | .eStr (some v) => toLex (Sum.inr (toLex (Sum.inl v)))
  | .eBool (some v) => toLex (Sum.inr (toLex (Sum.inr v)))
  | _ => toLex (Sum.inl (toLex (Sum.inl 0)))

/-- The `series` struct: name, declared kind, element storage and the
sticky error slot. -/
structure GSeries where
  name : String
  t : Kind
  elements : List Elem
  err : Option String
deriving DecidableEq

/-- Go `Len()`. -/
def GSeries.len (s : GSeries) : Nat := s.elements.length

/-- Element at a (checked in callers) position. -/
def GSeries.elAt (s : GSeries) (i : Nat) : Elem := s.elements.getD i default

/-- Go `Float()`: the elements as float64 values (NaN = `none`). -/
def GSeries.Float (s : GSeries) : List (Option ℚ) := s.elements.map Elem.Float

/-- Go `HasNaN()`. -/
def GSeries.hasNaN (s : GSeries) : Bool := s.elements.any Elem.IsNA

/-- Go `Int()`: all elements converted, first conversion error reported. -/
def GSeries.intConvAll (s : GSeries) : Except String (List Int) :=
  s.elements.mapM Elem.IntConv

/-- Go `Bool()`: all elements converted, first conversion error reported. -/
def GSeries.boolConvAll (s : GSeries) : Except String (List Bool) :=
  s.elements.mapM Elem.BoolConv

/-- The documented series invariant: every stored element belongs to the
series' declared kind. -/
def Homog (s : GSeries) : Prop := ∀ e ∈ s.elements, e.kind = s.t

/-- No element of the series is missing. -/
def NoNA (s : GSeries) : Prop := ∀ e ∈ s.elements, e.IsNA = false

instance (s : GSeries) : Decidable (Homog s) :=
  inferInstanceAs (Decidable (∀ e ∈ s.elements, e.kind = s.t))

instance (s : GSeries) : Decidable (NoNA s) :=
  inferInstanceAs (Decidable (∀ e ∈ s.elements, e.IsNA = false))

/-- Go `Empty()`: a fresh empty series of the same kind and name. -/
def emptyGo (t : Kind) (nm : String) : GSeries := ⟨nm, t, [], none⟩

/-- Go `Bools(...)` on a plain bool slice (as built by `Compare`). -/
def boolsGo (l : List Bool) : GSeries :=
  ⟨"", .tBool, l.map (fun b => Elem.eBool (some b)), none⟩

/-- Float-kind series from raw values (`Floats`). -/
def floatsGo (l : List (Option ℚ)) : GSeries := ⟨"", .tFloat, l.map Elem.eFloat, none⟩

/-- Int-kind series from raw values (`Ints`). -/
def intsGo (l : List Int) : GSeries :=
  ⟨"", .tInt, l.map (fun v => Elem.eInt (some v)), none⟩

/-- Insertion step of the stable-sort model: place `x` before the first
element it is `le`-below. -/
def insertByLe {α : Type} (le : α → α → Bool) (x : α) : List α → List α
  | [] => [x]
  | y :: ys => if le x y then x :: y :: ys else y :: insertByLe le x ys

/-- Stable insertion sort; models Go's `sort.Stable` contract (stable,
no inversions w.r.t. the comparator). -/
def sortByLe {α : Type} (le : α → α → Bool) : List α → List α
  | [] => []
  | x :: xs => insertByLe le x (sortByLe le xs)

/-- Positions of non-missing elements, in original order. -/
def nonNAIdx (s : GSeries) : List Nat :=
  (List.range s.len).filter (fun i => !(s.elAt i).IsNA)

/-- Positions of missing elements, in original order. -/
def naIdx (s : GSeries) : List Nat :=
  (List.range s.len).filter (fun i => (s.elAt i).IsNA)

/-- Comparator handed to the stable sort by `Order`: `sort.Stable` sorted
output has no inversion of `Less` (wrapped by `sort.Reverse` when
`reverse`), i.e. position `i` may precede `j` iff `le i j`. -/
def orderLe (s : GSeries) (reverse : Bool) (i j : Nat) : Bool :=
  if reverse then !((s.elAt i).Less (s.elAt j)) else !((s.elAt j).Less (s.elAt i))

/-- Go `Order(reverse)`: stable-sort the non-missing positions by element
value, then append the missing positions in order of appearance. -/
def orderGo (s : GSeries) (reverse : Bool) : List Nat :=
  sortByLe (orderLe s reverse) (nonNAIdx s) ++ naIdx s

/-- The `Indexes` selector shapes (int, []int, []bool, Series). -/
inductive Idx
  | one (i : Int)
  | list (l : List Int)
  | mask (l : List Bool)
  | ser (s : GSeries)

/-- Positions of the `true` entries of a boolean mask. -/
def maskPositions (bools : List Bool) : List Int :=
  (bools.enum.filter (fun p => p.2)).map (fun p => (p.1 : Int))

/-- Go `parseIndexes`: resolve an index specification to a position list.
Per its own comment, no out-of-bounds check is performed. -/
def parseIndexesGo (l : Nat) (indexes : Idx) : Except String (List Int) :=
  match indexes with
  | .list idxs => .ok idxs
  | .one i => .ok [i]
  | .mask bools =>
    if bools.length ≠ l then .error "indexing error: index dimensions mismatch"
    else .ok (maskPositions bools)
  | .ser s =>
    if s.err ≠ none then .error "indexing error: new values has errors"
    else if s.hasNaN then .error "indexing error: indexes contain NaN"
    else match s.t with
      | .tInt => s.intConvAll
      | .tBool =>
        match s.boolConvAll with
        | .error e => .error ("indexing error: " ++ e)
        | .ok bools =>
          if bools.length ≠ l then .error "indexing error: index dimensions mismatch"
          else .ok (maskPositions bools)
      | _ => .error "indexing error: unknown indexing mode"

/-- Go `Elements.Get(indexs...)`: gather elements at the given positions;
an out-of-range position is a runtime panic, embedded as `none`. -/
def getElems (els : List Elem) : List Int → Option (List Elem)
  | [] => some []
  | i :: rest =>
    if i < 0 ∨ (els.length : Int) ≤ i then none
    else (getElems els rest).map (fun lr => els.getD i.toNat default :: lr)

/-- Go `Subset`: no-op on a poisoned receiver; index-resolution failure
poisons; otherwise gathers elements (panicking — `none` — when a resolved
position is out of range). -/
def subsetGo (s : GSeries) (indexes : Idx) : Option GSeries :=
  if s.err ≠ none then some s
  else match parseIndexesGo s.len indexes with
    | .error e => some { s with err := some e }
    | .ok idx => (getElems s.elements idx).map (fun els => ⟨s.name, s.t, els, none⟩)

/-- Write loop of Go `Set`: writes positions one at a time, stopping with a
sticky error at the first out-of-range position (earlier writes remain). -/
def writeLoop (nv : GSeries) : GSeries → List Int → Nat → GSeries
  | s, [], _ => s
  | s, i :: rest, k =>
    if i < 0 ∨ (s.len : Int) ≤ i then { s with err := some "set error: index out of range" }
    else writeLoop nv
      { s with elements := s.elements.set i.toNat ((nv.elAt k).convertTo s.t) } rest (k + 1)

/-- Go `Set`: in-place write at resolved positions with dimension and
range checks; all failures poison the receiver. -/
def setGo (s : GSeries) (indexes : Idx) (newvalues : GSeries) : GSeries :=
  if s.err ≠ none then s
  else if newvalues.err ≠ none then { s with err := some "set error: argument has errors" }
  else match parseIndexesGo s.len indexes with
    | .error e => { s with err := some e }
    | .ok idx =>
      if idx.length ≠ newvalues.len then { s with err := some "set error: dimensions mismatch" }
      else writeLoop newvalues s idx 0

/-- Go `Append` (values already turned into elements by the constructor,
then coerced to the receiver's kind): no-op on a poisoned receiver. -/
def appendGo (s : GSeries) (values : List Elem) : GSeries :=
  if s.err ≠ none then s
  else { s with elements := s.elements ++ values.map (Elem.convertTo s.t) }

/-- Go `Concat`: copy of the receiver followed by the argument's elements;
propagates a poisoned receiver, and poisons on a poisoned argument. -/
def concatGo (s x : GSeries) : GSeries :=
  if s.err ≠ none then s
  else if x.err ≠ none then { s with err := some "concat error: argument has errors" }
  else { s with elements := s.elements ++ x.elements.map (Elem.convertTo s.t) }

/-- Go `Slice(start, end)`: bounds-checked view; failure yields an empty
poisoned series, a poisoned receiver is returned unchanged. -/
def sliceGo (s : GSeries) (start stop : Int) : GSeries :=
  if s.err ≠ none then s
  else if stop < start ∨ start < 0 ∨ (s.len : Int) < stop then
    { emptyGo s.t s.name with err := some "slice index out of bounds" }
  else
    { s with name := s.name ++ "_Slice(" ++ toString start ++ "," ++ toString stop ++ ")",
             elements := (s.elements.take stop.toNat).drop start.toNat }

/-- The supported comparators of `Compare` (the user-predicate comparator
carries its function). -/
inductive Cmp
  | ceq | cneq | cgt | cge | clt | cle | cin
  | cfunc (f : Elem → Bool)

/-- Element comparison dispatch of `Compare` for the six basic comparators. -/
def cmpBasic (a b : Elem) : Cmp → Bool
  | .ceq => a.Eq b
  | .cneq => a.Neq b
  | .cgt => a.Greater b
  | .cge => a.GreaterEq b
  | .clt => a.Less b
  | .cle => a.LessEq b
  | _ => false

/-- Go `Compare`: no-op on a poisoned receiver; the right-hand side is
coerced to the receiver's kind; user-predicate, membership, scalar
broadcast and length-matched shapes as in the source. -/
def compareGo (s : GSeries) (comparator : Cmp) (comparando : List Elem) : GSeries :=
  if s.err ≠ none then s
  else match comparator with
  | .cfunc f => boolsGo (s.elements.map f)
  | .cin =>
    boolsGo (s.elements.map (fun e =>
      (comparando.map (Elem.convertTo s.t)).any (fun m => e.Eq m)))
  | c =>
    match comparando.map (Elem.convertTo s.t) with
    | [m] => boolsGo (s.elements.map (fun e => cmpBasic e m c))
    | comp =>
      if s.len ≠ comp.length then
        { emptyGo s.t s.name with err := some "can not compare: length mismatch" }
      else boolsGo (List.zipWith (fun e m => cmpBasic e m c) s.elements comp)

/-- Go `Map`: element-wise transform into a fresh same-kind series; note
the result's error slot is unconditionally empty (`err: nil`). -/
def mapGo (s : GSeries) (f : Elem → Nat → Elem) : GSeries :=
  ⟨s.name, s.t, s.elements.enum.map (fun p => (f p.2 p.1).convertTo s.t), none⟩

/-- Go `Filter`: keeps the elements matching the predicate, in order; the
result's error slot is unconditionally empty. -/
def filterGo (s : GSeries) (ff : Elem → Nat → Bool) : GSeries :=
  ⟨s.name, s.t, (s.elements.enum.filter (fun p => ff p.2 p.1)).map (fun p => p.2), none⟩

/-- NaN-propagating float addition. -/
def optAdd : Option ℚ → Option ℚ → Option ℚ
  | some a, some b => some (a + b)
  | _, _ => none

/-- NaN-propagating float multiplication. -/
def optMul : Option ℚ → Option ℚ → Option ℚ
  | some a, some b => some (a * b)
  | _, _ => none

/-- Go `Sum`: NaN for an empty or String-kind series, else a left fold of
float addition over `Float()`. -/
def sumGo (s : GSeries) : Option ℚ :=
  if s.len = 0 ∨ s.t = .tString then none
  else match s.Float with
    | [] => none
    | h :: rest => rest.foldl optAdd h

/-- Go `Prod` (gonum `floats.Prod`): product of `Float()`, 1 on empty. -/
def prodGo (s : GSeries) : Option ℚ := s.Float.foldl optMul (some 1)

/-- Modelled from the spec: the numeric collaborator's arithmetic mean
(gonum `stat.Mean`) with IEEE NaN propagation — NaN on an empty input or
any NaN input. -/
def statMean (l : List (Option ℚ)) : Option ℚ :=
  if l.length = 0 ∨ l.any Option.isNone then none
  else some ((l.foldl (fun acc x => acc + x.getD 0) 0) / (l.length : ℚ))

/-- Go `Mean`: delegates to the collaborator over `Float()`. -/
def meanGo (s : GSeries) : Option ℚ := statMean s.Float

/-- Modelled from the spec: the collaborator's Bessel-corrected sample
standard deviation. ℚ has no square root, so the numeric value is
represented by the sample variance; the NaN structure (the only aspect a
claim below relies on) is preserved: NaN for fewer than two samples or any
NaN input. -/
def statStdDev (l : List (Option ℚ)) : Option ℚ :=
  if l.length ≤ 1 ∨ l.any Option.isNone then none
  else
    some ((l.foldl (fun acc x =>
      acc + (x.getD 0 - (l.foldl (fun a y => a + y.getD 0) 0) / (l.length : ℚ)) ^ 2) 0)
      / ((l.length : ℚ) - 1))

/-- Go `StdDev`. -/
def stdDevGo (s : GSeries) : Option ℚ := statStdDev s.Float

/-- Go `Max`: NaN for an empty or String-kind series, else the float value
of the `Greater`-fold over the elements. -/
def maxGo (s : GSeries) : Option ℚ :=
  if s.len = 0 ∨ s.t = .tString then none
  else match s.elements with
    | [] => none
    | h :: rest => (rest.foldl (fun mx e => if e.Greater mx then e else mx) h).Float

/-- Go `Min`: NaN for an empty or String-kind series, else the float value
of the `Less`-fold over the elements. -/
def minGo (s : GSeries) : Option ℚ :=
  if s.len = 0 ∨ s.t = .tString then none
  else match s.elements with
    | [] => none
    | h :: rest => (rest.foldl (fun mn e => if e.Less mn then e else mn) h).Float

/-- Elements of a series reordered by `Order(false)` (the `newElem` array
built by Go `Median`). -/
def medElems (s : GSeries) : List Elem := (orderGo s false).map s.elAt

/-- Go `Median`: NaN for an empty, String-kind or Bool-kind series; else
reorders all elements by `Order(false)` and takes the middle element's
float value (odd length) or the average of the two middle ones (even). -/
def medianGo (s : GSeries) : Option ℚ :=
  if s.len = 0 ∨ s.t = .tString ∨ s.t = .tBool then none
  else if (medElems s).length % 2 ≠ 0 then
    ((medElems s).getD ((medElems s).length / 2) default).Float
  else
    optMul (optAdd (((medElems s).getD ((medElems s).length / 2 - 1) default).Float)
        (((medElems s).getD ((medElems s).length / 2) default).Float)) (some (mkRat 1 2))

/-- Ascending float values `s.Subset(s.Order(false)).Float()` as used by
`Quantile` and `DataQuantile`. -/
def orderedFloats (s : GSeries) : List (Option ℚ) :=
  match subsetGo s (Idx.list ((orderGo s false).map Int.ofNat)) with
  | some t2 => t2.Float
  | none => []

/-- Modelled from the spec: the collaborator's empirical quantile over the
ascending float values (gonum `stat.Quantile` with `stat.Empirical`). -/
def statQuantile (p : ℚ) (ordered : List (Option ℚ)) : Option ℚ :=
  if ordered.length = 0 ∨ ordered.any Option.isNone then none
  else ordered.getD (min (ordered.length - 1) ((⌈p * (ordered.length : ℚ)⌉).toNat - 1)) none

/-- Go `Quantile(p)`: NaN for String kind or empty; `p = 0` returns `Min()`,
`p = 1` returns `Max()`, otherwise the empirical quantile. -/
def quantileGo (s : GSeries) (p : ℚ) : Option ℚ :=
  if s.t = .tString ∨ s.len = 0 then none
  else if p = 0 then minGo s
  else if p = 1 then maxGo s
  else statQuantile p (orderedFloats s)

/-- Go `Quantiles(ps...)`: nil for String kind or empty, else the per-entry
rule of `Quantile`. -/
def quantilesGo (s : GSeries) (ps : List ℚ) : List (Option ℚ) :=
  if s.t = .tString ∨ s.len = 0 then []
  else ps.map (fun p =>
    if p = 0 then minGo s else if p = 1 then maxGo s else statQuantile p (orderedFloats s))

/-- Index of the first list entry satisfying the predicate (the linear
scan of Go's `dataQuantile` loop). -/
def scanIdx {α : Type} (p : α → Bool) : List α → Option Nat
  | [] => none
  | d :: rest => if p d then some 0 else (scanIdx p rest).map (· + 1)

/-- Go helper `dataQuantile`: linear scan for the first ordered value
strictly above `v`, returning its index over `length`, and 1 when no value
is above `v`. -/
def dqScan (v : ℚ) (ordered : List (Option ℚ)) (length : Nat) : ℚ :=
  match scanIdx (fun d => match d with | some x => decide (v < x) | none => false) ordered with
  | some i => (i : ℚ) / (length : ℚ)
  | none => 1

/-- The receiver filtered to its non-missing elements (`tmpS` in Go
`DataQuantile`). -/
def tmpNonNA (s : GSeries) : GSeries := filterGo s (fun e _ => !e.IsNA)

/-- Go `DataQuantile(v)`: NaN for String kind, empty series, or no
non-missing element; else scans the ascending non-missing values with a
denominator equal to their count, incremented by one when odd. -/
def dataQuantileGo (s : GSeries) (v : ℚ) : Option ℚ :=
  if s.t = .tString ∨ s.len = 0 then none
  else if (tmpNonNA s).len = 0 then none
  else some (dqScan v (orderedFloats (tmpNonNA s))
    (if (orderedFloats (tmpNonNA s)).length % 2 = 1 then (orderedFloats (tmpNonNA s)).length + 1
     else (orderedFloats (tmpNonNA s)).length))

/-- Values stored in the memoization cache (Go stores `interface{}`; only
the shapes used by the claims are carried). -/
inductive CVal
  | vQ (v : Option ℚ)
  | vBools (v : List Bool)

/-- The cache: operation key to stored value (Go map, first match wins). -/
abbrev Cache := List (String × CVal)

/-- Cache lookup. -/
def cacheGet (c : Cache) (key : String) : Option CVal :=
  (c.find? (fun p => p.1 == key)).map (fun p => p.2)

/-- Cache store (prepending shadows any older entry, like a map write). -/
def cacheSet (c : Cache) (key : String) (v : CVal) : Cache := (key, v) :: c

/-- Go `cacheAbleSeries.cacheOrExecute`: on hit return the stored value; on
miss run the target and store the result only when it reported no error.
The final component records whether the target was executed. -/
def cacheOrExecute (c : Cache) (key : String) (f : Unit → CVal × Option String) :
    CVal × Option String × Cache × Bool :=
  match cacheGet c key with
  | some v => (v, none, c, false)
  | none =>
    match f () with
    | (v, e) => (v, e, if e = none then cacheSet c key v else c, true)

/-- Result of one call through the cache wrapper: value, updated cache, and
whether the underlying computation ran. -/
structure CacheCall (α : Type) where
  val : α
  cache : Cache
  executed : Bool

/-- Go type assertion `ret.(float64)` for cached numeric results. -/
def unQ : CVal → Option ℚ
  | .vQ v => v
  | _ => none

/-- Go type assertion `ret.([]bool)` for cached bool-slice results. -/
def unBools : CVal → List Bool
  | .vBools v => v
  | _ => []

/-- Go `cacheAbleSeries.Mean`: key "Mean", underlying `Mean` never errors. -/
def caMean (s : GSeries) (c : Cache) : CacheCall (Option ℚ) :=
  match cacheOrExecute c "Mean" (fun _ => (CVal.vQ (meanGo s), none)) with
  | (v, _, c2, ex) => ⟨unQ v, c2, ex⟩

/-- Go `cacheAbleSeries.Bool`: key "Bool", underlying `Bool()` may error (a
conversion failure), in which case nothing is cached. -/
def caBool (s : GSeries) (c : Cache) : CacheCall (List Bool × Option String) :=
  match cacheOrExecute c "Bool" (fun _ =>
    match s.boolConvAll with
    | .ok l => (CVal.vBools l, none)
    | .error e => (CVal.vBools [], some e)) with
  | (v, e, c2, ex) => ⟨(unBools v, e), c2, ex⟩

/-- Two successive `Mean()` calls on a fresh cache wrapper: both results
plus the number of underlying executions. -/
def caMeanTwice (s : GSeries) : (Option ℚ) × (Option ℚ) × Nat :=
  match caMean s [] with
  | r1 =>
    match caMean s r1.cache with
    | r2 => (r1.val, r2.val,
        (if r1.executed then 1 else 0) + (if r2.executed then 1 else 0))

/-- Number of underlying executions across two successive `Bool()` calls on
a fresh cache wrapper. -/
def caBoolTwiceCount (s : GSeries) : Nat :=
  match caBool s [] with
  | r1 =>
    match caBool s r1.cache with
    | r2 => (if r1.executed then 1 else 0) + (if r2.executed then 1 else 0)

/-- Trailing window of width `w` ending at position `i`: source positions
`[max(0, i-w+1), i]`. -/
def rollingWindow (l : List (Option ℚ)) (w i : Nat) : List (Option ℚ) :=
  (l.drop (i + 1 - w)).take (i + 1 - (i + 1 - w))

/-- Modelled from the spec: the RollingWindowEngine's `Max` on a Float
source (the rolling implementation file is not in the provided sources).
Output position `i` is missing when the window holds fewer than
`minPeriods` positions or any window element is missing; otherwise it is
the window maximum. Output length equals source length. -/
def rollingMaxF (l : List (Option ℚ)) (w m : Nat) : List (Option ℚ) :=
  (List.range l.length).map (fun i =>
    let win := rollingWindow l w i
    if win.length < m ∨ win.any Option.isNone then none
    else match win.filterMap id with
      | [] => none
      | h :: rest => some (rest.foldl max h))

/-- Float values of the non-missing elements, in original order (the basis
of the spec-side aggregate definitions). -/
def nonNAvals (s : GSeries) : List ℚ :=
  (s.elements.filter (fun e => !e.IsNA)).map Elem.fval

/-- Non-strict comparator on ℚ for the spec-side sorts. -/
def qle (a b : ℚ) : Bool := decide (a ≤ b)

/-- Ascending sort of the non-missing float values (spec side). -/
def sortedSpecVals (s : GSeries) : List ℚ := sortByLe qle (nonNAvals s)

/-- Spec-side median, following the claim's words: the middle of the
ascending-ordered non-missing values for an odd count, the average of the
two middle ones for an even count, NaN when there is nothing to order. -/
def medianSpec (s : GSeries) : Option ℚ :=
  if (sortedSpecVals s).length = 0 then none
  else if (sortedSpecVals s).length % 2 = 1 then
    some ((sortedSpecVals s).getD ((sortedSpecVals s).length / 2) 0)
  else
    some (((sortedSpecVals s).getD ((sortedSpecVals s).length / 2 - 1) 0
      + (sortedSpecVals s).getD ((sortedSpecVals s).length / 2) 0) * mkRat 1 2)

/-- Denominator of `DataQuantile`: the non-missing count, incremented by
one when odd. -/
def dqDenomN (s : GSeries) : Nat :=
  if (nonNAvals s).length % 2 = 1 then (nonNAvals s).length + 1 else (nonNAvals s).length

/-- Spec-side data quantile, following the claim's words: the count of
non-missing values strictly less than `v`, divided by the denominator. -/
def dataQuantileSpec (s : GSeries) (v : ℚ) : Option ℚ :=
  if s.t = .tString ∨ s.len = 0 ∨ (nonNAvals s).length = 0 then none
  else some (((nonNAvals s).countP (fun x => decide (x < v)) : ℚ) / (dqDenomN s : ℚ))

/-- Sort key of the element at a position. -/
def keyAt (s : GSeries) (i : Nat) : EKey := (s.elAt i).keyD

/-- Lexicographic (key, original position) strict order used to state that
a stable ascending sort's output is the unique sorted-stable permutation. -/
def lexLt {K : Type} [LinearOrder K] (k : Nat → K) (i j : Nat) : Prop :=
  k i < k j ∨ (k i = k j ∧ i < j)

/-- Go `Elem(i)`: negative indices count from the end (`len + i`); any
resulting out-of-range access panics (`none`). -/
def elemGo (s : GSeries) (i : Int) : Option Elem :=
  if i < 0 then
    if (s.len : Int) + i < 0 then none else s.elements.get? ((s.len : Int) + i).toNat
  else s.elements.get? i.toNat

theorem mem_insertByLe {α : Type} (le : α → α → Bool) (x z : α) (l : List α) :
    z ∈ insertByLe le x l ↔ z = x ∨ z ∈ l := by
  induction l with
  | nil => simp [insertByLe]
  | cons y ys ih =>
    by_cases h : le x y
    · simp only [insertByLe, if_pos h, List.mem_cons]
    · simp only [insertByLe, if_neg h, List.mem_cons, ih]
      tauto

theorem insertByLe_perm {α : Type} (le : α → α → Bool) (x : α) (l : List α) :
    (insertByLe le x l).Perm (x :: l) := by
  induction l with
  | nil => exact List.Perm.refl _
  | cons y ys ih =>
    by_cases h : le x y
    · rw [insertByLe, if_pos h]
    · rw [insertByLe, if_neg h]
      exact (ih.cons y).trans (List.Perm.swap x y ys)

theorem sortByLe_perm {α : Type} (le : α → α → Bool) (l : List α) :
    (sortByLe le l).Perm l := by
  induction l with
  | nil => exact List.Perm.refl _
  | cons x xs ih =>
    exact (insertByLe_perm le x (sortByLe le xs)).trans (ih.cons x)

theorem insertByLe_congr {α : Type} (le1 le2 : α → α → Bool) (x : α) (l : List α) :
    (∀ a ∈ x :: l, ∀ b ∈ x :: l, le1 a b = le2 a b) →
    insertByLe le1 x l = insertByLe le2 x l := by
  induction l with
  | nil => intro _; rfl
  | cons y ys ih =>
    intro h
    have hxy : le1 x y = le2 x y :=
      h x (List.mem_cons_self _ _) y (List.mem_cons_of_mem _ (List.mem_cons_self _ _))
    have hsub : ∀ a ∈ x :: ys, a ∈ x :: y :: ys := by
      intro a ha
      rcases List.mem_cons.mp ha with h1 | h2
      · exact h1 ▸ List.mem_cons_self _ _
      · exact List.mem_cons_of_mem _ (List.mem_cons_of_mem _ h2)
    by_cases hc : le2 x y
    · rw [insertByLe, insertByLe, hxy, if_pos hc, if_pos hc]
    · rw [insertByLe, insertByLe, hxy, if_neg hc, if_neg hc]
      exact congrArg (List.cons y) (ih (fun a ha b hb => h a (hsub a ha) b (hsub b hb)))

theorem sortByLe_congr {α : Type} (le1 le2 : α → α → Bool) (l : List α) :
    (∀ a ∈ l, ∀ b ∈ l, le1 a b = le2 a b) → sortByLe le1 l = sortByLe le2 l := by
  induction l with
  | nil => intro _; rfl
  | cons x xs ih =>
    intro h
    have hsub : ∀ a ∈ xs, a ∈ x :: xs := fun a ha => List.mem_cons_of_mem _ ha
    rw [sortByLe, sortByLe, ih (fun a ha b hb => h a (hsub a ha) b (hsub b hb))]
    apply insertByLe_congr
    intro a ha b hb
    have hmem : ∀ c, c ∈ x :: sortByLe le2 xs → c ∈ x :: xs := by
      intro c hc
      rcases List.mem_cons.mp hc with h1 | h2
      · exact h1 ▸ List.mem_cons_self _ _
      · exact List.mem_cons_of_mem _ ((sortByLe_perm le2 xs).mem_iff.mp h2)
    exact h a (hmem a ha) b (hmem b hb)

theorem insertByLe_pairwise_le {α K : Type} [LinearOrder K] (k : α → K) (x : α) (l : List α)
    (hl : l.Pairwise (fun a b => k a ≤ k b)) :
    (insertByLe (fun a b => decide (k a ≤ k b)) x l).Pairwise (fun a b => k a ≤ k b) := by
  induction l with
  | nil => simp [insertByLe]
  | cons y ys ih =>
    rcases List.pairwise_cons.mp hl with ⟨hy, hys⟩
    by_cases h : (k x ≤ k y)
    · rw [insertByLe, if_pos (decide_eq_true h)]
      refine List.pairwise_cons.mpr ⟨?_, hl⟩
      intro z hz
      rcases List.mem_cons.mp hz with rfl | hz2
      · exact h
      · exact le_trans h (hy z hz2)
    · rw [insertByLe, if_neg (by simpa using h)]
      refine List.pairwise_cons.mpr ⟨?_, ih hys⟩
      intro z hz
      rcases (mem_insertByLe _ x z ys).mp hz with rfl | hz2
      · exact le_of_lt (lt_of_not_le h)
      · exact hy z hz2

theorem sortByLe_pairwise_le {α K : Type} [LinearOrder K] (k : α → K) (l : List α) :
    (sortByLe (fun a b => decide (k a ≤ k b)) l).Pairwise (fun a b => k a ≤ k b) := by
  induction l with
  | nil => simp [sortByLe]
  | cons x xs ih => exact insertByLe_pairwise_le k x _ ih

theorem insertByLe_pairwise_lex {K : Type} [LinearOrder K] (k : Nat → K) (x : Nat) (l : List Nat)
    (hl : l.Pairwise (lexLt k)) (hx : ∀ y ∈ l, x < y) :
    (insertByLe (fun a b => decide (k a ≤ k b)) x l).Pairwise (lexLt k) := by
  induction l with
  | nil => simp [insertByLe]
  | cons y ys ih =>
    rcases List.pairwise_cons.mp hl with ⟨hy, hys⟩
    by_cases h : (k x ≤ k y)
    · rw [insertByLe, if_pos (decide_eq_true h)]
      refine List.pairwise_cons.mpr ⟨?_, hl⟩
      intro z hz
      rcases List.mem_cons.mp hz with rfl | hz2
      · rcases lt_or_eq_of_le h with hlt | heq
        · exact Or.inl hlt
        · exact Or.inr ⟨heq, hx z (List.mem_cons_self _ _)⟩
      · rcases hy z hz2 with hlt | heq
        · exact Or.inl (lt_of_le_of_lt h hlt)
        · rcases lt_or_eq_of_le h with hlt2 | heq2
          · exact Or.inl (heq.1 ▸ hlt2)
          · exact Or.inr ⟨heq2.trans heq.1, hx z (List.mem_cons_of_mem _ hz2)⟩
    · rw [insertByLe, if_neg (by simpa using h)]
      refine List.pairwise_cons.mpr ⟨?_, ih hys (fun z hz => hx z (List.mem_cons_of_mem _ hz))⟩
      intro z hz
      rcases (mem_insertByLe _ x z ys).mp hz with rfl | hz2
      · exact Or.inl (lt_of_not_le h)
      · exact hy z hz2

theorem sortByLe_pairwise_lex {K : Type} [LinearOrder K] (k : Nat → K) (l : List Nat)
    (hl : l.Pairwise (· < ·)) :
    (sortByLe (fun a b => decide (k a ≤ k b)) l).Pairwise (lexLt k) := by
  induction l with
  | nil => simp [sortByLe]
  | cons x xs ih =>
    rcases List.pairwise_cons.mp hl with ⟨hx, hxs⟩
    exact insertByLe_pairwise_lex k x _ (ih hxs)
      (fun y hy => hx y ((sortByLe_perm _ xs).mem_iff.mp hy))

theorem not_bool_eq_decide (X : Bool) (P : Prop) [Decidable P] (h : X = true ↔ ¬ P) :
    (!X) = decide P := by
  cases X
  · simp only [Bool.not_false]
    have hp : P := by
      by_contra hc
      exact absurd (h.mpr hc) (by simp)
    exact (decide_eq_true hp).symm
  · simp only [Bool.not_true]
    exact (decide_eq_false (fun hp => (h.mp rfl) hp)).symm

theorem less_true_iff_keyLt (a b : Elem) (hk : a.kind = b.kind)
    (ha : a.IsNA = false) (hb : b.IsNA = false) :
    a.Less b = true ↔ a.keyD < b.keyD := by
  cases a with
  | eInt va =>
    cases b with
    | eInt vb =>
      cases va with
      | none => simp [Elem.IsNA] at ha
      | some x =>
        cases vb with
        | none => simp [Elem.IsNA] at hb
        | some y => simp [Elem.Less, Elem.keyD, Sum.Lex.inl_lt_inl_iff]
    | eFloat vb => simp [Elem.kind] at hk
    | eStr vb => simp [Elem.kind] at hk
    | eBool vb => simp [Elem.kind] at hk
  | eFloat va =>
    cases b with
    | eInt vb => simp [Elem.kind] at hk
    | eFloat vb =>
      cases va with
      | none => simp [Elem.IsNA] at ha
      | some x =>
        cases vb with
        | none => simp [Elem.IsNA] at hb
        | some y =>
          simp [Elem.Less, Elem.keyD, Sum.Lex.inl_lt_inl_iff, Sum.Lex.inr_lt_inr_iff]
    | eStr vb => simp [Elem.kind] at hk
    | eBool vb => simp [Elem.kind] at hk
  | eStr va =>
    cases b with
    | eInt vb => simp [Elem.kind] at hk
    | eFloat vb => simp [Elem.kind] at hk
    | eStr vb =>
      cases va with
      | none => simp [Elem.IsNA] at ha
      | some x =>
        cases vb with
        | none => simp [Elem.IsNA] at hb
        | some y =>
          simp [Elem.Less, Elem.keyD, Sum.Lex.inl_lt_inl_iff, Sum.Lex.inr_lt_inr_iff]
    | eBool vb => simp [Elem.kind] at hk
  | eBool va =>
    cases b with
    | eInt vb => simp [Elem.kind] at hk
    | eFloat vb => simp [Elem.kind] at hk
    | eStr vb => simp [Elem.kind] at hk
    | eBool vb =>
      cases va with
      | none => simp [Elem.IsNA] at ha
      | some x =>
        cases vb with
        | none => simp [Elem.IsNA] at hb
        | some y =>
          simp [Elem.Less, Elem.keyD, Sum.Lex.inr_lt_inr_iff, Bool.lt_iff,
            Bool.and_eq_true, Bool.not_eq_true']

theorem mem_nonNAIdx (s : GSeries) (i : Nat) :
    i ∈ nonNAIdx s ↔ i < s.len ∧ (s.elAt i).IsNA = false := by
  simp [nonNAIdx, List.mem_filter, List.mem_range]

theorem mem_naIdx (s : GSeries) (i : Nat) :
    i ∈ naIdx s ↔ i < s.len ∧ (s.elAt i).IsNA = true := by
  simp [naIdx, List.mem_filter, List.mem_range]

theorem elAt_mem (s : GSeries) (i : Nat) (h : i < s.len) : s.elAt i ∈ s.elements := by
  have h2 : s.elAt i = s.elements.get ⟨i, h⟩ := by
    simp [GSeries.elAt, List.getD_eq_getElem?_getD, List.getElem?_eq_getElem h,
      List.get_eq_getElem]
  rw [h2]
  exact List.get_mem _ _ _

theorem elAt_kind (s : GSeries) (hg : Homog s) (i : Nat) (h : i < s.len) :
    (s.elAt i).kind = s.t := hg _ (elAt_mem s i h)

theorem orderLe_false_eq (s : GSeries) (hg : Homog s) :
    ∀ i ∈ nonNAIdx s, ∀ j ∈ nonNAIdx s,
      orderLe s false i j = decide (keyAt s i ≤ keyAt s j) := by
  intro i hi j hj
  rcases (mem_nonNAIdx s i).mp hi with ⟨hil, hina⟩
  rcases (mem_nonNAIdx s j).mp hj with ⟨hjl, hjna⟩
  show (!((s.elAt j).Less (s.elAt i))) = decide (keyAt s i ≤ keyAt s j)
  apply not_bool_eq_decide
  rw [less_true_iff_keyLt _ _ ((elAt_kind s hg j hjl).trans (elAt_kind s hg i hil).symm) hjna hina]
  exact lt_iff_not_le

theorem orderLe_true_eq (s : GSeries) (hg : Homog s) :
    ∀ i ∈ nonNAIdx s, ∀ j ∈ nonNAIdx s,
      orderLe s true i j
        = decide ((OrderDual.toDual (keyAt s i)) ≤ (OrderDual.toDual (keyAt s j))) := by
  intro i hi j hj
  rcases (mem_nonNAIdx s i).mp hi with ⟨hil, hina⟩
  rcases (mem_nonNAIdx s j).mp hj with ⟨hjl, hjna⟩
  show (!((s.elAt i).Less (s.elAt j))) = decide _
  apply not_bool_eq_decide
  rw [less_true_iff_keyLt _ _ ((elAt_kind s hg i hil).trans (elAt_kind s hg j hjl).symm) hina hjna]
  constructor
  · intro hlt hle
    exact absurd hlt (not_lt_of_le (OrderDual.toDual_le_toDual.mp hle))
  · intro hn
    rcases lt_or_le (keyAt s i) (keyAt s j) with hlt | hle
    · exact hlt
    · exact absurd (OrderDual.toDual_le_toDual.mpr hle) hn

theorem pairwise_lt_nonNAIdx (s : GSeries) : (nonNAIdx s).Pairwise (· < ·) :=
  (List.pairwise_lt_range s.len).filter _

theorem orderGo_false_pairwise (s : GSeries) (hg : Homog s) :
    (sortByLe (orderLe s false) (nonNAIdx s)).Pairwise (lexLt (keyAt s)) := by
  rw [sortByLe_congr (orderLe s false) (fun i j => decide (keyAt s i ≤ keyAt s j)) _
    (orderLe_false_eq s hg)]
  exact sortByLe_pairwise_lex (keyAt s) _ (pairwise_lt_nonNAIdx s)

theorem orderGo_true_pairwise (s : GSeries) (hg : Homog s) :
    (sortByLe (orderLe s true) (nonNAIdx s)).Pairwise
      (fun i j => keyAt s j < keyAt s i ∨ (keyAt s i = keyAt s j ∧ i < j)) := by
  rw [sortByLe_congr (orderLe s true)
    (fun i j => decide ((fun x => OrderDual.toDual (keyAt s x)) i
      ≤ (fun x => OrderDual.toDual (keyAt s x)) j)) _ (orderLe_true_eq s hg)]
  have h := sortByLe_pairwise_lex (fun x => OrderDual.toDual (keyAt s x)) _
    (pairwise_lt_nonNAIdx s)
  refine h.imp ?_
  intro i j hij
  rcases hij with hlt | ⟨heq, hpos⟩
  · exact Or.inl (OrderDual.toDual_lt_toDual.mp hlt)
  · exact Or.inr ⟨OrderDual.toDual_inj.mp heq, hpos⟩

theorem nonNA_na_perm (s : GSeries) : (nonNAIdx s ++ naIdx s).Perm (List.range s.len) := by
  have h := List.filter_append_perm (fun i => !(s.elAt i).IsNA) (List.range s.len)
  have h2 : naIdx s = (List.range s.len).filter (fun i => !(!(s.elAt i).IsNA)) := by
    simp [naIdx, Bool.not_not]
  rw [nonNAIdx, h2]
  exact h

theorem orderGo_perm_range (s : GSeries) (reverse : Bool) :
    (orderGo s reverse).Perm (List.range s.len) := by
  rw [orderGo]
  exact ((sortByLe_perm _ _).append (List.Perm.refl _)).trans (nonNA_na_perm s)

/-- C6: for every kind-homogeneous series, `Order(false)` is a permutation
of all positions whose prefix lists the non-missing positions in ascending
value order — stable for ties, i.e. sorted by the strict lexicographic
(key, original position) order — followed by the missing positions in
their original relative order (`naIdx`); `Order(true)` reverses only the
ordering of the non-missing positions (descending by value, ties still in
original order), the missing positions still appended last. -/
theorem claim6_order_stability (s : GSeries) (hg : Homog s) :
    ((orderGo s false).Perm (List.range s.len) ∧ (orderGo s true).Perm (List.range s.len))
    ∧ (∃ P, orderGo s false = P ++ naIdx s ∧ P.Perm (nonNAIdx s)
        ∧ P.Pairwise (lexLt (keyAt s)))
    ∧ (∃ P, orderGo s true = P ++ naIdx s ∧ P.Perm (nonNAIdx s)
        ∧ P.Pairwise (fun i j => keyAt s j < keyAt s i ∨ (keyAt s i = keyAt s j ∧ i < j))) := by
  refine ⟨⟨orderGo_perm_range s false, orderGo_perm_range s true⟩, ?_, ?_⟩
  · exact ⟨_, rfl, sortByLe_perm _ _, orderGo_false_pairwise s hg⟩
  · exact ⟨_, rfl, sortByLe_perm _ _, orderGo_true_pairwise s hg⟩

/-- Witness for C6 at a concrete Int series with a tie and a missing value. -/
theorem claim6_w :
    ((orderGo ⟨"", Kind.tInt, [Elem.eInt (some 2), Elem.eInt none, Elem.eInt (some 1),
        Elem.eInt (some 1)], none⟩ false).Perm (List.range
          (⟨"", Kind.tInt, [Elem.eInt (some 2), Elem.eInt none, Elem.eInt (some 1),
            Elem.eInt (some 1)], none⟩ : GSeries).len)
      ∧ (orderGo ⟨"", Kind.tInt, [Elem.eInt (some 2), Elem.eInt none, Elem.eInt (some 1),
          Elem.eInt (some 1)], none⟩ true).Perm (List.range
            (⟨"", Kind.tInt, [Elem.eInt (some 2), Elem.eInt none, Elem.eInt (some 1),
              Elem.eInt (some 1)], none⟩ : GSeries).len))
    ∧ (∃ P, orderGo ⟨"", Kind.tInt, [Elem.eInt (some 2), Elem.eInt none, Elem.eInt (some 1),
          Elem.eInt (some 1)], none⟩ false
            = P ++ naIdx ⟨"", Kind.tInt, [Elem.eInt (some 2), Elem.eInt none,
                Elem.eInt (some 1), Elem.eInt (some 1)], none⟩
          ∧ P.Perm (nonNAIdx ⟨"", Kind.tInt, [Elem.eInt (some 2), Elem.eInt none,
              Elem.eInt (some 1), Elem.eInt (some 1)], none⟩)
          ∧ P.Pairwise (lexLt (keyAt ⟨"", Kind.tInt, [Elem.eInt (some 2), Elem.eInt none,
              Elem.eInt (some 1), Elem.eInt (some 1)], none⟩)))
    ∧ (∃ P, orderGo ⟨"", Kind.tInt, [Elem.eInt (some 2), Elem.eInt none, Elem.eInt (some 1),
          Elem.eInt (some 1)], none⟩ true
            = P ++ naIdx ⟨"", Kind.tInt, [Elem.eInt (some 2), Elem.eInt none,
                Elem.eInt (some 1), Elem.eInt (some 1)], none⟩
          ∧ P.Perm (nonNAIdx ⟨"", Kind.tInt, [Elem.eInt (some 2), Elem.eInt none,
              Elem.eInt (some 1), Elem.eInt (some 1)], none⟩)
          ∧ P.Pairwise (fun i j =>
              keyAt ⟨"", Kind.tInt, [Elem.eInt (some 2), Elem.eInt none, Elem.eInt (some 1),
                Elem.eInt (some 1)], none⟩ j
                < keyAt ⟨"", Kind.tInt, [Elem.eInt (some 2), Elem.eInt none, Elem.eInt (some 1),
                    Elem.eInt (some 1)], none⟩ i
              ∨ (keyAt ⟨"", Kind.tInt, [Elem.eInt (some 2), Elem.eInt none, Elem.eInt (some 1),
                    Elem.eInt (some 1)], none⟩ i
                  = keyAt ⟨"", Kind.tInt, [Elem.eInt (some 2), Elem.eInt none,
                      Elem.eInt (some 1), Elem.eInt (some 1)], none⟩ j ∧ i < j))) :=
  claim6_order_stability _ (by decide)

/-- C7: `Quantile(0)` equals `Min()` and `Quantile(1)` equals `Max()` for a
non-empty non-String series, and entries 0 and 1 of `Quantiles` obey the
same boundary rule. -/
theorem claim7_quantile_boundary (s : GSeries) (h0 : s.len ≠ 0) (hs : s.t ≠ Kind.tString)
    (ps : List ℚ) :
    quantileGo s 0 = minGo s ∧ quantileGo s 1 = maxGo s
    ∧ (∀ i : Nat, (ps[i]? = some 0 → (quantilesGo s ps)[i]? = some (minGo s))
        ∧ (ps[i]? = some 1 → (quantilesGo s ps)[i]? = some (maxGo s))) := by
  have hc : ¬(s.t = Kind.tString ∨ s.len = 0) := by
    rintro (h | h)
    · exact hs h
    · exact h0 h
  refine ⟨?_, ?_, ?_⟩
  · rw [quantileGo, if_neg hc, if_pos rfl]
  · rw [quantileGo, if_neg hc, if_neg (one_ne_zero (α := ℚ)), if_pos rfl]
  · intro i
    constructor
    · intro hp
      rw [quantilesGo, if_neg hc, List.getElem?_map, hp, Option.map_some', if_pos rfl]
    · intro hp
      rw [quantilesGo, if_neg hc, List.getElem?_map, hp, Option.map_some',
        if_neg (one_ne_zero (α := ℚ)), if_pos rfl]

/-- Witness for C7 at a concrete Int series. -/
theorem claim7_w :
    quantileGo (intsGo [3, 1]) 0 = minGo (intsGo [3, 1])
    ∧ quantileGo (intsGo [3, 1]) 1 = maxGo (intsGo [3, 1])
    ∧ (∀ i : Nat, (([(0 : ℚ), 1])[i]? = some 0 →
          (quantilesGo (intsGo [3, 1]) [0, 1])[i]? = some (minGo (intsGo [3, 1])))
        ∧ (([(0 : ℚ), 1])[i]? = some 1 →
          (quantilesGo (intsGo [3, 1]) [0, 1])[i]? = some (maxGo (intsGo [3, 1])))) :=
  claim7_quantile_boundary (intsGo [3, 1]) (by decide) (by decide) [0, 1]

/-- C9: for `-len ≤ i < 0`, `Elem(i)` returns the element at position
`len + i` (in particular it succeeds), and `Elem(-1)` is the last element. -/
theorem claim9_elem_negative (s : GSeries) (i : Int)
    (h1 : -(s.len : Int) ≤ i) (h2 : i < 0) :
    elemGo s i = s.elements.get? ((s.len : Int) + i).toNat
    ∧ (elemGo s i).isSome = true
    ∧ elemGo s (-1) = s.elements.getLast? := by
  have hge : ¬((s.len : Int) + i < 0) := by omega
  have heq : elemGo s i = s.elements.get? ((s.len : Int) + i).toNat := by
    rw [elemGo, if_pos h2, if_neg hge]
  refine ⟨heq, ?_, ?_⟩
  · rw [heq]
    have hlen : s.elements.length = s.len := rfl
    have hlt : ((s.len : Int) + i).toNat < s.elements.length := by omega
    rw [List.get?_eq_get hlt]
    rfl
  · rcases Nat.eq_zero_or_pos s.len with hz | hpos
    · have hel : s.elements = [] := List.length_eq_zero.mp hz
      rw [elemGo, hel]
      simp [hz]
    · have hne : ¬((s.len : Int) + (-1) < 0) := by omega
      rw [elemGo, if_pos (by omega : (-1 : Int) < 0), if_neg hne]
      have hlen : s.elements.length = s.len := rfl
      have htn : ((s.len : Int) + (-1)).toNat = s.elements.length - 1 := by omega
      rw [htn, List.getLast?_eq_getElem?, List.get?_eq_getElem?]

/-- Witness for C9 at `i = -1` on a two-element series. -/
theorem claim9_w :
    elemGo (intsGo [7, 8]) (-1)
        = (intsGo [7, 8]).elements.get? (((intsGo [7, 8]).len : Int) + (-1)).toNat
    ∧ (elemGo (intsGo [7, 8]) (-1)).isSome = true
    ∧ elemGo (intsGo [7, 8]) (-1) = (intsGo [7, 8]).elements.getLast? :=
  claim9_elem_negative (intsGo [7, 8]) (-1) (by decide) (by decide)

/-- C10: on an empty series of any kind `Prod()` returns 1, while the other
aggregate reductions (`Sum`, `Mean`, `Median`, `Min`, `Max`, `StdDev`)
return NaN. -/
theorem claim10_prod_empty (t : Kind) (nm : String) :
    prodGo (emptyGo t nm) = some 1
    ∧ sumGo (emptyGo t nm) = none ∧ meanGo (emptyGo t nm) = none
    ∧ medianGo (emptyGo t nm) = none ∧ minGo (emptyGo t nm) = none
    ∧ maxGo (emptyGo t nm) = none ∧ stdDevGo (emptyGo t nm) = none :=
  ⟨rfl, rfl, rfl, rfl, rfl, rfl, rfl⟩

/-- C1 (amended): on a poisoned receiver, `Subset`, `Set`, `Compare`,
`Concat`, `Append` and `Slice` are no-ops returning the poisoned receiver;
`Map` and `Filter` however do not check the error slot — they compute from
the stored elements and return a series whose error slot is empty. -/
theorem claim1_amended (s : GSeries) (e : String) (he : s.err = some e)
    (indexes : Idx) (nv : GSeries) (c : Cmp) (cl : List Elem) (x : GSeries)
    (vals : List Elem) (a b : Int) (f : Elem → Nat → Elem) (p : Elem → Nat → Bool) :
    subsetGo s indexes = some s ∧ setGo s indexes nv = s
    ∧ compareGo s c cl = s ∧ concatGo s x = s ∧ appendGo s vals = s
    ∧ sliceGo s a b = s
    ∧ (mapGo s f).err = none ∧ (filterGo s p).err = none := by
  have hne : s.err ≠ none := by rw [he]; exact Option.some_ne_none e
  refine ⟨?_, ?_, ?_, ?_, ?_, ?_, rfl, rfl⟩
  · rw [subsetGo, if_pos hne]
  · rw [setGo, if_pos hne]
  · cases c
    all_goals rw [compareGo, if_pos hne]
    all_goals first
      | exact fun f2 hco => Cmp.noConfusion hco
      | exact fun hco => Cmp.noConfusion hco
  · rw [concatGo, if_pos hne]
  · rw [appendGo, if_pos hne]
  · rw [sliceGo, if_pos hne]

/-- Witness for C1 (amended) at a concretely poisoned Float series. -/
theorem claim1_w :
    subsetGo ⟨"x", Kind.tFloat, [Elem.eFloat (some 1)], some "boom"⟩ (Idx.list [0])
        = some ⟨"x", Kind.tFloat, [Elem.eFloat (some 1)], some "boom"⟩
    ∧ setGo ⟨"x", Kind.tFloat, [Elem.eFloat (some 1)], some "boom"⟩ (Idx.list [0])
          (floatsGo [some 2])
        = ⟨"x", Kind.tFloat, [Elem.eFloat (some 1)], some "boom"⟩
    ∧ compareGo ⟨"x", Kind.tFloat, [Elem.eFloat (some 1)], some "boom"⟩ Cmp.ceq
          [Elem.eFloat (some 1)]
        = ⟨"x", Kind.tFloat, [Elem.eFloat (some 1)], some "boom"⟩
    ∧ concatGo ⟨"x", Kind.tFloat, [Elem.eFloat (some 1)], some "boom"⟩ (floatsGo [some 2])
        = ⟨"x", Kind.tFloat, [Elem.eFloat (some 1)], some "boom"⟩
    ∧ appendGo ⟨"x", Kind.tFloat, [Elem.eFloat (some 1)], some "boom"⟩ [Elem.eFloat (some 2)]
        = ⟨"x", Kind.tFloat, [Elem.eFloat (some 1)], some "boom"⟩
    ∧ sliceGo ⟨"x", Kind.tFloat, [Elem.eFloat (some 1)], some "boom"⟩ 0 1
        = ⟨"x", Kind.tFloat, [Elem.eFloat (some 1)], some "boom"⟩
    ∧ (mapGo ⟨"x", Kind.tFloat, [Elem.eFloat (some 1)], some "boom"⟩ (fun e _ => e)).err = none
    ∧ (filterGo ⟨"x", Kind.tFloat, [Elem.eFloat (some 1)], some "boom"⟩
        (fun _ _ => true)).err = none :=
  claim1_amended ⟨"x", Kind.tFloat, [Elem.eFloat (some 1)], some "boom"⟩ "boom" rfl
    (Idx.list [0]) (floatsGo [some 2]) Cmp.ceq [Elem.eFloat (some 1)] (floatsGo [some 2])
    [Elem.eFloat (some 2)] 0 1 (fun e _ => e) (fun _ _ => true)

/-- C1 counterexample: a series poisoned by a mask-length mismatch in
`Subset`, on which `Map` (with the identity function) computes a fresh
result whose error slot is empty rather than returning the poisoned
receiver — refuting the claim that every transforming operation is a no-op
on a poisoned series. -/
theorem claim1_cex :
    (subsetGo (floatsGo [some 1, some 2]) (Idx.mask [true])
        = some ⟨"", Kind.tFloat, [Elem.eFloat (some 1), Elem.eFloat (some 2)],
            some "indexing error: index dimensions mismatch"⟩)
    ∧ (mapGo ⟨"", Kind.tFloat, [Elem.eFloat (some 1), Elem.eFloat (some 2)],
          some "indexing error: index dimensions mismatch"⟩ (fun e _ => e)).err = none
    ∧ mapGo ⟨"", Kind.tFloat, [Elem.eFloat (some 1), Elem.eFloat (some 2)],
          some "indexing error: index dimensions mismatch"⟩ (fun e _ => e)
        ≠ ⟨"", Kind.tFloat, [Elem.eFloat (some 1), Elem.eFloat (some 2)],
            some "indexing error: index dimensions mismatch"⟩ := by
  refine ⟨by decide, rfl, by decide⟩

theorem getElems_none_of_bad (els : List Elem) (l : List Int)
    (hbad : ∃ i ∈ l, i < 0 ∨ (els.length : Int) ≤ i) : getElems els l = none := by
  induction l with
  | nil =>
    rcases hbad with ⟨i, hi, _⟩
    exact absurd hi (List.not_mem_nil i)
  | cons j rest ih =>
    rcases hbad with ⟨i, hi, hout⟩
    rcases List.mem_cons.mp hi with rfl | hmem
    · rw [getElems, if_pos hout]
    · by_cases hj : j < 0 ∨ (els.length : Int) ≤ j
      · rw [getElems, if_pos hj]
      · rw [getElems, if_neg hj, ih ⟨i, hmem, hout⟩]
        rfl

theorem writeLoop_err_of_bad (nv : GSeries) (l : List Int) :
    ∀ (s : GSeries) (k : Nat), s.err = none →
      (∃ i ∈ l, i < 0 ∨ (s.len : Int) ≤ i) → (writeLoop nv s l k).err ≠ none := by
  induction l with
  | nil =>
    intro s k _ hbad
    rcases hbad with ⟨i, hi, _⟩
    exact absurd hi (List.not_mem_nil i)
  | cons j rest ih =>
    intro s k herr hbad
    by_cases hj : j < 0 ∨ (s.len : Int) ≤ j
    · rw [writeLoop, if_pos hj]
      simp
    · rw [writeLoop, if_neg hj]
      refine ih _ (k + 1) ?_ ?_
      · exact herr
      · rcases hbad with ⟨i, hi, hout⟩
        rcases List.mem_cons.mp hi with rfl | hmem
        · exact absurd hout hj
        · refine ⟨i, hmem, ?_⟩
          simpa [GSeries.len, List.length_set] using hout

/-- C3 (amended): `parseIndexes` resolves an index list to exactly that
ordered position list with no bounds validation; an out-of-range position
handed to `Subset` causes an unreported runtime failure (a panic, embedded
as `none`) rather than an error-bearing series, while `Set` does check
bounds and reports an out-of-range position as a sticky error. -/
theorem claim3_amended (s nv : GSeries) (l : List Int) (n : Nat) :
    parseIndexesGo n (Idx.list l) = .ok l
    ∧ (s.err = none → (∃ i ∈ l, i < 0 ∨ (s.len : Int) ≤ i) →
        subsetGo s (Idx.list l) = none)
    ∧ (s.err = none → nv.err = none → l.length = nv.len →
        (∃ i ∈ l, i < 0 ∨ (s.len : Int) ≤ i) → (setGo s (Idx.list l) nv).err ≠ none) := by
  refine ⟨rfl, ?_, ?_⟩
  · intro herr hbad
    rw [subsetGo, if_neg (by simp [herr])]
    show (getElems s.elements l).map _ = none
    rw [getElems_none_of_bad s.elements l hbad]
    rfl
  · intro herr hnv hlen hbad
    rw [setGo, if_neg (by simp [herr]), if_neg (by simp [hnv])]
    show (if l.length ≠ nv.len then _ else writeLoop nv s l 0).err ≠ none
    rw [if_neg (by simp [hlen])]
    exact writeLoop_err_of_bad nv l s 0 herr hbad

/-- Witness for C3 (amended): position 5 on a length-3 series. -/
theorem claim3_w :
    subsetGo (floatsGo [some 1, some 2, some 3]) (Idx.list [5]) = none
    ∧ (setGo (floatsGo [some 1, some 2, some 3]) (Idx.list [5]) (floatsGo [some 9])).err
        ≠ none :=
  ⟨(claim3_amended (floatsGo [some 1, some 2, some 3]) (floatsGo [some 9]) [5] 3).2.1
      rfl (by decide),
    (claim3_amended (floatsGo [some 1, some 2, some 3]) (floatsGo [some 9]) [5] 3).2.2
      rfl rfl rfl (by decide)⟩

/-- C3 counterexample: `parseIndexes` reports no error for the out-of-range
position 5 on a length-3 series, and `Subset` then fails unreported (a
panic, embedded as `none`) instead of returning an error-bearing series —
refuting the claim that out-of-range positions are always a reported
error. -/
theorem claim3_cex :
    parseIndexesGo 3 (Idx.list [5]) = .ok [5]
    ∧ subsetGo (floatsGo [some 1, some 2, some 3]) (Idx.list [5]) = none
    ∧ ¬(∃ res, subsetGo (floatsGo [some 1, some 2, some 3]) (Idx.list [5]) = some res
          ∧ res.err ≠ none) := by
  refine ⟨rfl, rfl, ?_⟩
  rintro ⟨res, hres, _⟩
  rw [show subsetGo (floatsGo [some 1, some 2, some 3]) (Idx.list [5]) = none from rfl] at hres
  cases hres

/-- C2 (amended): through `CacheAble`, an operation whose underlying
computation succeeds is executed at most once across two invocations and
both invocations return exactly the unwrapped operation's result (shown
for `Mean`, whose underlying computation never reports an error); a failed
computation (`Bool()` on an unconvertible series) is never stored in the
cache — and is therefore re-executed by each invocation. -/
theorem claim2_amended (s : GSeries) :
    ((caMeanTwice s).1 = meanGo s ∧ (caMeanTwice s).2.1 = meanGo s
      ∧ (caMeanTwice s).2.2 = 1)
    ∧ (∀ e, s.boolConvAll = .error e →
        (caBool s []).cache = [] ∧ (caBool s []).val = ([], some e)
          ∧ (caBool s []).executed = true) := by
  constructor
  · refine ⟨?_, ?_, ?_⟩ <;>
      simp [caMeanTwice, caMean, cacheOrExecute, cacheGet, cacheSet, unQ]
  · intro e he
    refine ⟨?_, ?_, ?_⟩ <;>
      simp [caBool, cacheOrExecute, cacheGet, cacheSet, he, unBools]

/-- Witness for C2 (amended) on `Ints([5])`, whose `Bool()` conversion
fails. -/
theorem claim2_w :
    ((caMeanTwice (intsGo [5])).1 = meanGo (intsGo [5])
      ∧ (caMeanTwice (intsGo [5])).2.1 = meanGo (intsGo [5])
      ∧ (caMeanTwice (intsGo [5])).2.2 = 1)
    ∧ ((caBool (intsGo [5]) []).cache = []
        ∧ (caBool (intsGo [5]) []).val = ([], some "can not convert to bool")
        ∧ (caBool (intsGo [5]) []).executed = true) :=
  ⟨(claim2_amended (intsGo [5])).1,
   (claim2_amended (intsGo [5])).2 "can not convert to bool" rfl⟩

/-- C2 counterexample: `Bool()` on `Ints([5])` reports a conversion error;
wrapped with `CacheAble`, two invocations execute the underlying
computation twice — refuting "executes the underlying computation at most
once" as universally stated over all cached read operations. -/
theorem claim2_cex :
    caBoolTwiceCount (intsGo [5]) = 2 ∧ ¬(caBoolTwiceCount (intsGo [5]) ≤ 1) :=
  ⟨by decide, by decide⟩

/-- C8 (spec-modelled rolling engine): on the test's Float series with
window 3 and minPeriods 2, the rolling Max equals the expected vector, and
rolling that result again with window 3, minPeriods 2 equals the second
expected vector: the NaN produced by the inner pass makes the outer output
missing even at positions whose raw in-window position count satisfies
minPeriods. -/
theorem claim8_rolling_nested_max :
    rollingMaxF [some (mkRat 15 10), some (mkRat (-323) 100), some (mkRat (-337397) 1000000),
        some (mkRat (-380079) 1000000), some (mkRat 160979 100000), some 34] 3 2
      = [none, some (mkRat 15 10), some (mkRat 15 10), some (mkRat (-337397) 1000000),
          some (mkRat 160979 100000), some 34]
    ∧ rollingMaxF [none, some (mkRat 15 10), some (mkRat 15 10),
          some (mkRat (-337397) 1000000), some (mkRat 160979 100000), some 34] 3 2
      = [none, none, none, some (mkRat 15 10), some (mkRat 160979 100000), some 34] :=
  ⟨by decide, by decide⟩

/-- C4 counterexample: `Bools([true])` is non-empty and not of String
kind, yet `Median()` returns NaN while the claim's middle-value rule gives
1 — refuting "returns NaN exactly for an empty series or a String-kind
series". -/
theorem claim4_cex :
    medianGo ⟨"", Kind.tBool, [Elem.eBool (some true)], none⟩ = none
    ∧ medianSpec ⟨"", Kind.tBool, [Elem.eBool (some true)], none⟩ = some 1
    ∧ (⟨"", Kind.tBool, [Elem.eBool (some true)], none⟩ : GSeries).len ≠ 0
    ∧ (⟨"", Kind.tBool, [Elem.eBool (some true)], none⟩ : GSeries).t ≠ Kind.tString :=
  ⟨rfl, by decide, by decide, by decide⟩

/-- C5 counterexample: on `Floats([1,2,3])` with `v = 5` the code returns
1 (the scan found no ordered value strictly above `v`), while the claim's
formula — the count of non-missing values strictly below `v` over the
denominator 4 (count 3, odd, incremented) — gives 3/4. -/
theorem claim5_cex :
    dataQuantileGo (floatsGo [some 1, some 2, some 3]) 5 = some 1
    ∧ dataQuantileSpec (floatsGo [some 1, some 2, some 3]) 5 = some (3 / 4)
    ∧ some ((3 : ℚ) / 4) ≠ some (1 : ℚ) := by
  refine ⟨by decide, ?_, by norm_num⟩
  have h1 : nonNAvals (floatsGo [some 1, some 2, some 3]) = [1, 2, 3] := by decide
  rw [dataQuantileSpec, dqDenomN, h1]
  norm_num [List.countP_cons, List.countP_nil]
  intro hco
  exact absurd hco (by decide)

theorem getD_range_map {α : Type} (l : List α) (d : α) :
    (List.range l.length).map (fun i => l.getD i d) = l := by
  induction l with
  | nil => rfl
  | cons a as ih =>
    rw [List.length_cons, List.range_succ_eq_map, List.map_cons]
    have h2 : ((fun i => (a :: as).getD i d) ∘ Nat.succ) = (fun i => as.getD i d) := by
      funext i
      simp [List.getD_cons_succ]
    rw [List.getD_cons_zero, List.map_map, h2, ih]

theorem nonNAIdx_eq_range (s : GSeries) (hna : NoNA s) : nonNAIdx s = List.range s.len := by
  rw [nonNAIdx, List.filter_eq_self]
  intro i hi
  have hlt : i < s.len := List.mem_range.mp hi
  rw [hna _ (elAt_mem s i hlt)]
  rfl

theorem naIdx_eq_nil (s : GSeries) (hna : NoNA s) : naIdx s = [] := by
  rw [naIdx, List.filter_eq_nil_iff]
  intro i hi
  have hlt : i < s.len := List.mem_range.mp hi
  rw [hna _ (elAt_mem s i hlt)]
  exact Bool.false_ne_true

theorem float_eq_some_fval (a : Elem) (ha : a.IsNA = false) (ht : a.kind ≠ Kind.tString) :
    a.Float = some a.fval := by
  cases a with
  | eInt va =>
    cases va with
    | none => simp [Elem.IsNA] at ha
    | some x => rfl
  | eFloat va =>
    cases va with
    | none => simp [Elem.IsNA] at ha
    | some x => rfl
  | eStr va => exact absurd rfl ht
  | eBool va =>
    cases va with
    | none => simp [Elem.IsNA] at ha
    | some x => cases x <;> rfl

theorem keyLe_fval_le (a b : Elem) (hk : a.kind = b.kind) (ha : a.IsNA = false)
    (hb : b.IsNA = false) (ht : a.kind ≠ Kind.tString) :
    a.keyD ≤ b.keyD → a.fval ≤ b.fval := by
  cases a with
  | eInt va =>
    cases b with
    | eInt vb =>
      cases va with
      | none => simp [Elem.IsNA] at ha
      | some x =>
        cases vb with
        | none => simp [Elem.IsNA] at hb
        | some y =>
          intro h
          have hxy : x ≤ y := by
            simpa [Elem.keyD, Sum.Lex.inl_le_inl_iff] using h
          simpa [Elem.fval, Elem.Float] using Int.cast_le.mpr hxy
    | eFloat vb => simp [Elem.kind] at hk
    | eStr vb => simp [Elem.kind] at hk
    | eBool vb => simp [Elem.kind] at hk
  | eFloat va =>
    cases b with
    | eInt vb => simp [Elem.kind] at hk
    | eFloat vb =>
      cases va with
      | none => simp [Elem.IsNA] at ha
      | some x =>
        cases vb with
        | none => simp [Elem.IsNA] at hb
        | some y =>
          intro h
          have hxy : x ≤ y := by
            simpa [Elem.keyD, Sum.Lex.inl_le_inl_iff, Sum.Lex.inr_le_inr_iff] using h
          simpa [Elem.fval, Elem.Float] using hxy
    | eStr vb => simp [Elem.kind] at hk
    | eBool vb => simp [Elem.kind] at hk
  | eStr va => exact absurd rfl ht
  | eBool va =>
    cases b with
    | eInt vb => simp [Elem.kind] at hk
    | eFloat vb => simp [Elem.kind] at hk
    | eStr vb => simp [Elem.kind] at hk
    | eBool vb =>
      cases va with
      | none => simp [Elem.IsNA] at ha
      | some x =>
        cases vb with
        | none => simp [Elem.IsNA] at hb
        | some y =>
          intro h
          have hxy : x ≤ y := by
            simpa [Elem.keyD, Sum.Lex.inr_le_inr_iff] using h
          cases x <;> cases y
          · exact le_refl _
          · show (0 : ℚ) ≤ 1
            norm_num
          · exact absurd hxy (by decide)
          · exact le_refl _

theorem getD_map_fval (l : List Elem) (n : Nat) (h : n < l.length) :
    (l.map Elem.fval).getD n 0 = (l.getD n default).fval := by
  rw [List.getD_eq_getElem?_getD, List.getD_eq_getElem?_getD, List.getElem?_map,
    List.getElem?_eq_getElem h]
  rfl

theorem getD_map_in_range {α β : Type} (f : α → β) (l : List α) (n : Nat) (d : α) (d2 : β)
    (h : n < l.length) : (l.map f).getD n d2 = f (l.getD n d) := by
  rw [List.getD_eq_getElem?_getD, List.getD_eq_getElem?_getD, List.getElem?_map,
    List.getElem?_eq_getElem h]
  rfl

theorem getD_mem_of_lt {α : Type} (l : List α) (n : Nat) (d : α) (h : n < l.length) :
    l.getD n d ∈ l := by
  rw [List.getD_eq_getElem?_getD, List.getElem?_eq_getElem h]
  exact List.getElem_mem h

theorem sorted_idx_fvals_perm (s : GSeries) (hna : NoNA s) :
    ((sortByLe (orderLe s false) (nonNAIdx s)).map (fun i => (s.elAt i).fval)).Perm
      (s.elements.map Elem.fval) := by
  have h2 := (sortByLe_perm (orderLe s false) (nonNAIdx s)).map (fun i => (s.elAt i).fval)
  have h3 : (nonNAIdx s).map (fun i => (s.elAt i).fval) = s.elements.map Elem.fval := by
    rw [nonNAIdx_eq_range s hna]
    have h4 := getD_range_map s.elements (default : Elem)
    calc (List.range s.len).map (fun i => (s.elAt i).fval)
        = ((List.range s.elements.length).map (fun i => s.elements.getD i default)).map
            Elem.fval := by
          rw [List.map_map]
          rfl
      _ = s.elements.map Elem.fval := by rw [h4]
  exact h3 ▸ h2

theorem sorted_idx_fvals_pairwise (s : GSeries) (hg : Homog s) (ht : s.t ≠ Kind.tString) :
    ((sortByLe (orderLe s false) (nonNAIdx s)).map (fun i => (s.elAt i).fval)).Pairwise
      (fun a b : ℚ => a ≤ b) := by
  rw [List.pairwise_map]
  have hp := orderGo_false_pairwise s hg
  refine List.Pairwise.imp_of_mem ?_ hp
  intro i j hi hj hij
  have hmem := fun a => (sortByLe_perm (orderLe s false) (nonNAIdx s)).mem_iff (a := a)
  rcases (mem_nonNAIdx s i).mp ((hmem i).mp hi) with ⟨hil, hina⟩
  rcases (mem_nonNAIdx s j).mp ((hmem j).mp hj) with ⟨hjl, hjna⟩
  have hkle : keyAt s i ≤ keyAt s j := by
    rcases hij with hlt | ⟨heq, _⟩
    · exact le_of_lt hlt
    · exact le_of_eq heq
  exact keyLe_fval_le _ _ ((elAt_kind s hg i hil).trans (elAt_kind s hg j hjl).symm)
    hina hjna (by rw [elAt_kind s hg i hil]; exact ht) hkle

theorem sorted_fvals_eq (s : GSeries) (hg : Homog s) (hna : NoNA s)
    (ht : s.t ≠ Kind.tString) :
    (sortByLe (orderLe s false) (nonNAIdx s)).map (fun i => (s.elAt i).fval)
      = sortByLe qle (s.elements.map Elem.fval) := by
  have hperm : ((sortByLe (orderLe s false) (nonNAIdx s)).map
      (fun i => (s.elAt i).fval)).Perm (sortByLe qle (s.elements.map Elem.fval)) :=
    (sorted_idx_fvals_perm s hna).trans (sortByLe_perm qle _).symm
  refine List.eq_of_perm_of_sorted (r := fun a b : ℚ => a ≤ b) hperm ?_ ?_
  · exact sorted_idx_fvals_pairwise s hg ht
  · exact sortByLe_pairwise_le (fun x : ℚ => x) _

theorem nonNAvals_eq_map_fval (s : GSeries) (hna : NoNA s) :
    nonNAvals s = s.elements.map Elem.fval := by
  rw [nonNAvals]
  congr 1
  rw [List.filter_eq_self]
  intro e he
  rw [hna e he]
  rfl

theorem medElems_length (s : GSeries) : (medElems s).length = s.len := by
  rw [medElems, List.length_map, (orderGo_perm_range s false).length_eq, List.length_range]

theorem sortedSpecVals_length (s : GSeries) (hna : NoNA s) :
    (sortedSpecVals s).length = s.len := by
  rw [sortedSpecVals, (sortByLe_perm _ _).length_eq, nonNAvals_eq_map_fval s hna,
    List.length_map]
  rfl

theorem medElems_float_getD (s : GSeries) (hg : Homog s) (hna : NoNA s)
    (ht : s.t ≠ Kind.tString) (n : Nat) (hn : n < s.len) :
    ((medElems s).getD n default).Float = some ((sortedSpecVals s).getD n 0) := by
  have hord : orderGo s false = sortByLe (orderLe s false) (nonNAIdx s) := by
    rw [orderGo, naIdx_eq_nil s hna, List.append_nil]
  have hlenP : (sortByLe (orderLe s false) (nonNAIdx s)).length = s.len := by
    rw [(sortByLe_perm _ _).length_eq, nonNAIdx_eq_range s hna, List.length_range]
  have hn2 : n < (sortByLe (orderLe s false) (nonNAIdx s)).length := by
    rw [hlenP]
    exact hn
  have h5 : (medElems s).getD n default
      = s.elAt ((sortByLe (orderLe s false) (nonNAIdx s)).getD n 0) := by
    rw [medElems, hord, getD_map_in_range s.elAt _ n 0 default hn2]
  have hidx_mem : (sortByLe (orderLe s false) (nonNAIdx s)).getD n 0 ∈ nonNAIdx s :=
    (sortByLe_perm _ _).mem_iff.mp (getD_mem_of_lt _ n 0 hn2)
  rcases (mem_nonNAIdx s _).mp hidx_mem with ⟨hl2, hna2⟩
  rw [h5, float_eq_some_fval _ hna2 (by rw [elAt_kind s hg _ hl2]; exact ht)]
  congr 1
  have h6 : sortedSpecVals s
      = (sortByLe (orderLe s false) (nonNAIdx s)).map (fun i => (s.elAt i).fval) := by
    rw [sortedSpecVals, nonNAvals_eq_map_fval s hna, sorted_fvals_eq s hg hna ht]
  rw [h6, getD_map_in_range (fun i => (s.elAt i).fval) _ n 0 0 hn2]

/-- C4 (amended): for a kind-homogeneous series with no missing values,
`Median()` equals the claim's middle-value / average-of-two-middles rule
for non-empty Int- and Float-kind series, and returns NaN exactly for an
empty, String-kind, or Bool-kind series (Bool being the kind the claim
omitted; with missing values present the code's reordering also consults
missing slots, so the no-missing restriction is necessary as well). -/
theorem claim4_amended (s : GSeries) (hg : Homog s) (hna : NoNA s) :
    ((s.t = Kind.tInt ∨ s.t = Kind.tFloat) → 0 < s.len → medianGo s = medianSpec s)
    ∧ (medianGo s = none ↔ (s.len = 0 ∨ s.t = Kind.tString ∨ s.t = Kind.tBool)) := by
  have hmain : (s.t = Kind.tInt ∨ s.t = Kind.tFloat) → 0 < s.len →
      medianGo s = medianSpec s ∧ (medianSpec s).isSome = true := by
    intro hti h0
    have ht : s.t ≠ Kind.tString := by
      rcases hti with h | h <;> rw [h] <;> exact fun hc => Kind.noConfusion hc
    have htb : s.t ≠ Kind.tBool := by
      rcases hti with h | h <;> rw [h] <;> exact fun hc => Kind.noConfusion hc
    have hcond : ¬(s.len = 0 ∨ s.t = Kind.tString ∨ s.t = Kind.tBool) := by
      rintro (h | h | h)
      · omega
      · exact ht h
      · exact htb h
    have hlm := medElems_length s
    have hls := sortedSpecVals_length s hna
    have hvne : ¬((sortedSpecVals s).length = 0) := by omega
    by_cases hpar : s.len % 2 = 1
    · have hgo : medianGo s = some ((sortedSpecVals s).getD (s.len / 2) 0) := by
        rw [medianGo, if_neg hcond, if_pos (show (medElems s).length % 2 ≠ 0 by omega), hlm]
        exact medElems_float_getD s hg hna ht _ (Nat.div_lt_self h0 (by norm_num))
      have hsp : medianSpec s = some ((sortedSpecVals s).getD (s.len / 2) 0) := by
        rw [medianSpec, if_neg hvne,
          if_pos (show (sortedSpecVals s).length % 2 = 1 by omega), hls]
      refine ⟨hgo.trans hsp.symm, ?_⟩
      rw [hsp]
      rfl
    · have hgo : medianGo s = some (((sortedSpecVals s).getD (s.len / 2 - 1) 0
          + (sortedSpecVals s).getD (s.len / 2) 0) * mkRat 1 2) := by
        rw [medianGo, if_neg hcond, if_neg (show ¬((medElems s).length % 2 ≠ 0) by omega),
          hlm, medElems_float_getD s hg hna ht _ (Nat.div_lt_self h0 (by norm_num)),
          medElems_float_getD s hg hna ht _ (show s.len / 2 - 1 < s.len by omega)]
        rfl
      have hsp : medianSpec s = some (((sortedSpecVals s).getD (s.len / 2 - 1) 0
          + (sortedSpecVals s).getD (s.len / 2) 0) * mkRat 1 2) := by
        rw [medianSpec, if_neg hvne,
          if_neg (show ¬((sortedSpecVals s).length % 2 = 1) by omega), hls]
      refine ⟨hgo.trans hsp.symm, ?_⟩
      rw [hsp]
      rfl
  refine ⟨fun hti h0 => (hmain hti h0).1, ?_, ?_⟩
  · intro hnone
    by_contra hc
    push_neg at hc
    rcases hc with ⟨h0, hs, hb⟩
    have hti : s.t = Kind.tInt ∨ s.t = Kind.tFloat := by
      cases htk : s.t
      · exact absurd htk hs
      · exact Or.inl rfl
      · exact Or.inr rfl
      · exact absurd htk hb
    have h2 := (hmain hti (Nat.pos_of_ne_zero h0)).2
    rw [← (hmain hti (Nat.pos_of_ne_zero h0)).1, hnone] at h2
    exact Bool.false_ne_true h2
  · intro hor
    rw [medianGo, if_pos hor]

/-- Witness for C4 (amended) on `Floats([3, 1, 2, 4])`. -/
theorem claim4_w :
    medianGo (floatsGo [some 3, some 1, some 2, some 4])
      = medianSpec (floatsGo [some 3, some 1, some 2, some 4])
    ∧ (medianGo (floatsGo [some 3, some 1, some 2, some 4]) = none
        ↔ ((floatsGo [some 3, some 1, some 2, some 4]).len = 0
            ∨ (floatsGo [some 3, some 1, some 2, some 4]).t = Kind.tString
            ∨ (floatsGo [some 3, some 1, some 2, some 4]).t = Kind.tBool)) :=
  ⟨(claim4_amended (floatsGo [some 3, some 1, some 2, some 4]) (by decide) (by decide)).1
      (Or.inr rfl) (by decide),
    (claim4_amended (floatsGo [some 3, some 1, some 2, some 4]) (by decide) (by decide)).2⟩

theorem enumFrom_filter_snd {α : Type} (q : α → Bool) (l : List α) :
    ∀ k, ((List.enumFrom k l).filter (fun p => q p.2)).map (fun p => p.2) = l.filter q := by
  induction l with
  | nil => intro k; rfl
  | cons a as ih =>
    intro k
    rw [List.enumFrom]
    by_cases h : q a
    · rw [List.filter_cons_of_pos (by simpa using h), List.map_cons,
        List.filter_cons_of_pos h, ih (k + 1)]
    · rw [List.filter_cons_of_neg (by simpa using h), List.filter_cons_of_neg h, ih (k + 1)]

theorem tmpNonNA_elements (s : GSeries) :
    (tmpNonNA s).elements = s.elements.filter (fun e => !e.IsNA) := by
  show ((List.enumFrom 0 s.elements).filter (fun p => !(p.2).IsNA)).map (fun p => p.2)
    = s.elements.filter (fun e => !e.IsNA)
  exact enumFrom_filter_snd (fun e => !e.IsNA) s.elements 0

theorem tmpNonNA_noNA (s : GSeries) : NoNA (tmpNonNA s) := by
  intro e he
  rw [tmpNonNA_elements] at he
  have hq := (List.mem_filter.mp he).2
  simpa using hq

theorem tmpNonNA_homog (s : GSeries) (hg : Homog s) : Homog (tmpNonNA s) := by
  intro e he
  rw [tmpNonNA_elements] at he
  exact hg e (List.mem_filter.mp he).1

theorem tmpNonNA_len (s : GSeries) : (tmpNonNA s).len = (nonNAvals s).length := by
  show (tmpNonNA s).elements.length = _
  rw [tmpNonNA_elements, nonNAvals, List.length_map]

theorem getElems_ofNat (els : List Elem) (ixs : List Nat) (h : ∀ i ∈ ixs, i < els.length) :
    getElems els (ixs.map Int.ofNat) = some (ixs.map (fun i => els.getD i default)) := by
  induction ixs with
  | nil => rfl
  | cons j rest ih =>
    have hjl : j < els.length := h j (List.mem_cons_self _ _)
    have hj : ¬((Int.ofNat j : Int) < 0 ∨ (els.length : Int) ≤ Int.ofNat j) := by
      have hco : (Int.ofNat j) = (j : Int) := rfl
      rw [hco]
      omega
    rw [List.map_cons, getElems, if_neg hj,
      ih (fun i hi => h i (List.mem_cons_of_mem _ hi))]
    simp [Int.toNat_ofNat]

theorem orderedFloats_eq (s2 : GSeries) (hg : Homog s2) (hna : NoNA s2)
    (ht : s2.t ≠ Kind.tString) (herr : s2.err = none) :
    orderedFloats s2 = (sortByLe qle (s2.elements.map Elem.fval)).map some := by
  have hmem : ∀ i ∈ orderGo s2 false, i < s2.len := fun i hi =>
    List.mem_range.mp ((orderGo_perm_range s2 false).mem_iff.mp hi)
  have hsub : subsetGo s2 (Idx.list ((orderGo s2 false).map Int.ofNat))
      = some ⟨s2.name, s2.t, (orderGo s2 false).map (fun i => s2.elements.getD i default),
          none⟩ := by
    rw [subsetGo, if_neg (by simp [herr])]
    show (getElems s2.elements ((orderGo s2 false).map Int.ofNat)).map _ = _
    rw [getElems_ofNat s2.elements _ hmem]
    rfl
  rw [orderedFloats, hsub]
  show ((orderGo s2 false).map (fun i => s2.elements.getD i default)).map Elem.Float = _
  have hord : orderGo s2 false = sortByLe (orderLe s2 false) (nonNAIdx s2) := by
    rw [orderGo, naIdx_eq_nil s2 hna, List.append_nil]
  calc ((orderGo s2 false).map (fun i => s2.elements.getD i default)).map Elem.Float
      = (orderGo s2 false).map (fun i => (s2.elAt i).Float) := by
        rw [List.map_map]
        rfl
    _ = (orderGo s2 false).map (fun i => some ((s2.elAt i).fval)) := by
        apply List.map_congr_left
        intro i hi
        have hil := hmem i hi
        exact float_eq_some_fval _ (hna _ (elAt_mem s2 i hil))
          (by rw [elAt_kind s2 hg i hil]; exact ht)
    _ = ((orderGo s2 false).map (fun i => (s2.elAt i).fval)).map some := by
        rw [List.map_map]
        rfl
    _ = (sortByLe qle (s2.elements.map Elem.fval)).map some := by
        rw [hord, sorted_fvals_eq s2 hg hna ht]

theorem scanIdx_map_some (p : ℚ → Bool) (l : List ℚ) :
    scanIdx (fun d => match d with | some x => p x | none => false) (l.map some)
      = scanIdx p l := by
  induction l with
  | nil => rfl
  | cons a rest ih =>
    rw [List.map_cons, scanIdx, scanIdx]
    by_cases h : p a
    · rw [if_pos h, if_pos h]
    · rw [if_neg h, if_neg h, ih]

theorem perm_any_eq {α : Type} (p : α → Bool) (l1 l2 : List α) (h : l1.Perm l2) :
    l1.any p = l2.any p := by
  cases h2 : l2.any p
  · rw [List.any_eq_false] at h2 ⊢
    intro x hx
    exact h2 x (h.mem_iff.mp hx)
  · rw [List.any_eq_true] at h2 ⊢
    rcases h2 with ⟨x, hx, hp⟩
    exact ⟨x, h.mem_iff.mpr hx, hp⟩

theorem scanIdx_sorted_count (v : ℚ) (l : List ℚ) (hs : l.Pairwise (fun a b : ℚ => a ≤ b)) :
    scanIdx (fun x => decide (v < x)) l
      = if l.any (fun x => decide (v < x)) then some (l.countP (fun x => decide (x ≤ v)))
        else none := by
  induction l with
  | nil => rfl
  | cons a rest ih =>
    rcases List.pairwise_cons.mp hs with ⟨ha, hrest⟩
    by_cases hva : v < a
    · rw [scanIdx, if_pos (decide_eq_true hva)]
      have hany : (a :: rest).any (fun x => decide (v < x)) = true := by
        rw [List.any_cons, Bool.or_eq_true]
        exact Or.inl (decide_eq_true hva)
      rw [if_pos hany]
      have hcount : (a :: rest).countP (fun x => decide (x ≤ v)) = 0 := by
        rw [List.countP_eq_zero]
        intro x hx
        rcases List.mem_cons.mp hx with rfl | hx2
        · simpa using not_le_of_lt hva
        · simpa using not_le_of_lt (lt_of_lt_of_le hva (ha x hx2))
      rw [hcount]
    · rw [scanIdx, if_neg (by simpa using hva), ih hrest]
      have hle : a ≤ v := le_of_not_lt hva
      by_cases hany : rest.any (fun x => decide (v < x)) = true
      · rw [if_pos hany]
        have hany2 : (a :: rest).any (fun x => decide (v < x)) = true := by
          rw [List.any_cons, Bool.or_eq_true]
          exact Or.inr hany
        rw [if_pos hany2]
        have hcnt : (a :: rest).countP (fun x => decide (x ≤ v))
            = rest.countP (fun x => decide (x ≤ v)) + 1 := by
          rw [List.countP_cons]
          simp [hle]
        rw [hcnt]
        rfl
      · rw [if_neg hany]
        have hany2 : ¬((a :: rest).any (fun x => decide (v < x)) = true) := by
          rw [List.any_cons, Bool.or_eq_true]
          rintro (hc | hc)
          · exact hva (of_decide_eq_true hc)
          · exact hany hc
        rw [if_neg hany2]
        rfl

/-- C5 (amended): for a kind-homogeneous non-String series with at least
one non-missing element, `DataQuantile(v)` equals the count of non-missing
values less than **or equal to** `v` (not strictly less, as soon as a value
equals `v`) divided by the denominator (non-missing count, +1 when odd) —
provided some non-missing value exceeds `v`; otherwise it saturates and
returns 1 regardless of the claim's ratio. -/
theorem claim5_amended (s : GSeries) (v : ℚ) (hg : Homog s) (ht : s.t ≠ Kind.tString)
    (h0 : s.len ≠ 0) (hm : (nonNAvals s).length ≠ 0) :
    dataQuantileGo s v
      = some (if (nonNAvals s).any (fun x => decide (v < x))
          then ((nonNAvals s).countP (fun x => decide (x ≤ v)) : ℚ) / (dqDenomN s : ℚ)
          else 1) := by
  have hcond1 : ¬(s.t = Kind.tString ∨ s.len = 0) := by
    rintro (h | h)
    · exact ht h
    · exact h0 h
  have hcond2 : ¬((tmpNonNA s).len = 0) := by
    rw [tmpNonNA_len]
    exact hm
  have he1 : (tmpNonNA s).elements.map Elem.fval = nonNAvals s := by
    rw [tmpNonNA_elements, nonNAvals]
  have ho : orderedFloats (tmpNonNA s) = (sortByLe qle (nonNAvals s)).map some := by
    rw [orderedFloats_eq (tmpNonNA s) (tmpNonNA_homog s hg) (tmpNonNA_noNA s) ht rfl, he1]
  have hl : (orderedFloats (tmpNonNA s)).length = (nonNAvals s).length := by
    rw [ho, List.length_map, (sortByLe_perm _ _).length_eq]
  rw [dataQuantileGo, if_neg hcond1, if_neg hcond2, hl, ho, dqScan,
    scanIdx_map_some (fun x => decide (v < x)) (sortByLe qle (nonNAvals s)),
    scanIdx_sorted_count v (sortByLe qle (nonNAvals s))
      (by exact sortByLe_pairwise_le (fun x : ℚ => x) (nonNAvals s))]
  have hany : (sortByLe qle (nonNAvals s)).any (fun x => decide (v < x))
      = (nonNAvals s).any (fun x => decide (v < x)) :=
    perm_any_eq _ _ _ (sortByLe_perm qle (nonNAvals s))
  have hcnt : (sortByLe qle (nonNAvals s)).countP (fun x => decide (x ≤ v))
      = (nonNAvals s).countP (fun x => decide (x ≤ v)) :=
    (sortByLe_perm qle (nonNAvals s)).countP_eq _
  rw [hany, hcnt]
  by_cases hc : (nonNAvals s).any (fun x => decide (v < x)) = true
  · rw [if_pos hc, if_pos hc]
    rfl
  · rw [if_neg hc, if_neg hc]

/-- Witness for C5 (amended) on `Floats([1, 3])` with `v = 2`. -/
theorem claim5_w :
    dataQuantileGo (floatsGo [some 1, some 3]) 2
      = some (if (nonNAvals (floatsGo [some 1, some 3])).any (fun x => decide ((2 : ℚ) < x))
          then ((nonNAvals (floatsGo [some 1, some 3])).countP
              (fun x => decide (x ≤ (2 : ℚ))) : ℚ)
            / (dqDenomN (floatsGo [some 1, some 3]) : ℚ)
          else 1) :=
  claim5_amended (floatsGo [some 1, some 3]) 2 (by decide) (by decide) (by decide) (by decide)
